import Mathlib

/-!
Verification of the bundlechanges plan builder (juju/bundlechanges).

The Go sources are embedded shallowly: maps become association lists, slices
become lists, the stateful main loop of changeset.sorted becomes a fuel-indexed
function, and interface values holding option data become an inductive type.
Every definition is translated from the corresponding Go function, except for
the few definitions whose doc comment starts with "Modelled from the spec":
those model behaviour of this repository whose implementing revision is not
among the sources (only its tests and the helper declarations it calls are).
-/

namespace Bundlechanges

/- ===================== Definitions: change set (src/changes.go) ============ -/

/-- A change record of the change set (src/changes.go): the unique id, the ids
of the changes that must be applied before it, and the method tag. -/
structure Change where
  id : String
  requires : List String
  method : String
deriving DecidableEq, Repr

/-- A change is emittable when every id it requires has been recorded already:
the inner loop of changeset.sorted in src/changes.go. -/
def emittable (records : List String) (c : Change) : Bool :=
  c.requires.all fun r => records.contains r

/-- Fuel-indexed embedding of the main loop of changeset.sorted
(src/changes.go): while the pending list is nonempty, pop its head; if all the
ids it requires are recorded, record its id and append it to the output,
otherwise push it back at the tail and retry later.  One loop iteration
consumes one unit of fuel; `none` means the loop is still running when the
fuel runs out, so the Go loop terminates iff some fuel yields `some`. -/
def sortedAux : Nat → List Change → List String → List Change → Option (List Change)
  | _, [], _, acc => some acc.reverse
  | 0, _ :: _, _, _ => none
  | fuel + 1, c :: rest, records, acc =>
    if emittable records c then
      sortedAux fuel rest (c.id :: records) (c :: acc)
    else
      sortedAux fuel (rest ++ [c]) records acc

/-- changeset.sorted (src/changes.go) on the appended changes `cs`, with the
given fuel: records and output start empty. -/
def sortedRun (fuel : Nat) (cs : List Change) : Option (List Change) :=
  sortedAux fuel cs [] []

/-- Direct edge of the requires graph of a change set: `a` requires `b` when
the id of `b` is listed in the requires of `a`. -/
def dependsOn (cs : List Change) (a b : Change) : Prop :=
  a ∈ cs ∧ b ∈ cs ∧ b.id ∈ a.requires

/-- Transitive dependency in the requires graph. -/
def TransDep (cs : List Change) : Change → Change → Prop :=
  Relation.TransGen (dependsOn cs)

/-- The requires graph of the change set is acyclic. -/
def Acyclic (cs : List Change) : Prop :=
  ∀ c, ¬ TransDep cs c c

/-- Every id listed in a requires list of the set is the id of a change of the
set. -/
def RequiresClosed (cs : List Change) : Prop :=
  ∀ c ∈ cs, ∀ r ∈ c.requires, r ∈ cs.map Change.id

/-- Default change used by positional lookups. -/
def dfltChange : Change := ⟨"", [], ""⟩

/-- Every change of the list only requires ids of changes placed strictly
earlier in the list: each requires-target appears before each change that
requires it. -/
def RequiresBefore (out : List Change) : Prop :=
  ∀ i, i < out.length → ∀ r ∈ (out.getD i dfltChange).requires,
    r ∈ (out.take i).map Change.id

/-- Helper invariant: every change of the list only requires ids of `seen` or
ids of changes placed earlier in the list. -/
def reqSeen (seen : List String) : List Change → Prop
  | [] => True
  | c :: rest => (∀ r ∈ c.requires, r ∈ seen) ∧ reqSeen (c.id :: seen) rest

/-- Concrete two-change set (upload one charm, then deploy it) used as a
witness input. -/
def c2Pair : List Change :=
  [⟨"addCharm-0", [], "addCharm"⟩, ⟨"deploy-1", ["addCharm-0"], "deploy"⟩]

/-- Concrete one-change set whose change requires an id no change of the set
carries, used as a witness input. -/
def c9Set : List Change := [⟨"addUnit-0", ["deploy-9"], "addUnit"⟩]

/-- A change that requires a change appended after it, as the unit handler of
the source produces when a placement target is emitted later. -/
def c3ChA : Change := ⟨"addUnit-0", ["addMachines-2"], "addUnit"⟩

/-- A change with no requires, appended second. -/
def c3ChB : Change := ⟨"deploy-1", [], "deploy"⟩

/-- The change required by the first one, appended last. -/
def c3ChC : Change := ⟨"addMachines-2", [], "addMachines"⟩

/-- Concrete three-change set in insertion order. -/
def c3Set : List Change := [c3ChA, c3ChB, c3ChC]

/-- Concrete change set whose requires all point backwards, used as a witness
input. -/
def c3Ordered : List Change :=
  [⟨"addCharm-0", [], "addCharm"⟩, ⟨"deploy-1", ["addCharm-0"], "deploy"⟩,
    ⟨"addUnit-2", ["deploy-1"], "addUnit"⟩]

/- ===================== Definitions: relations (src/diff.go, src/model.go) == -/

/-- A relation of the model (src/model.go): two application names with their
endpoints. -/
structure Relation where
  App1 : String
  Endpoint1 : String
  App2 : String
  Endpoint2 : String
deriving DecidableEq, Repr

/-- canonicalRelation (src/diff.go): swap the two endpoints unless the pair is
already in lexicographic order. -/
def canonicalRelation (relation : Relation) : Relation :=
  if relation.App1 < relation.App2 then relation
  else if relation.App1 = relation.App2 ∧ relation.Endpoint1 ≤ relation.Endpoint2 then
    relation
  else
    ⟨relation.App2, relation.Endpoint2, relation.App1, relation.Endpoint1⟩

/-- The endpoint-swapped form of a relation. -/
def swapRelation (relation : Relation) : Relation :=
  ⟨relation.App2, relation.Endpoint2, relation.App1, relation.Endpoint1⟩

/-- The ordering invariant canonicalRelation establishes: the first application
is smaller, or the applications are equal and the first endpoint is not
larger. -/
def CanonicalForm (r : Relation) : Prop :=
  r.App1 < r.App2 ∨ (r.App1 = r.App2 ∧ r.Endpoint1 ≤ r.Endpoint2)

/-- Result of Go sort.Strings.  Sorting a list of strings has a unique
nondecreasing result (equal strings are identical), so insertion sort computes
the same list as the sort of the source. -/
def sortStrings (l : List String) : List String :=
  List.insertionSort (fun a b => a ≤ b) l

/-- strings.SplitN(s, ":", 2): the part before the first colon and the rest.
The source indexes parts[1] unconditionally (bundle relations are validated
"app:endpoint" strings); on a string without a colon this embedding returns an
empty second part where the source would panic. -/
def splitColon (s : String) : String × String :=
  match s.splitOn ":" with
  | [] => (s, "")
  | [a] => (a, "")
  | a :: rest => (a, String.intercalate ":" rest)

/-- relationFromEndpoints (src/diff.go).  In Go, `relation[:]` aliases the
backing array of the bundle relation pair, so sort.Strings reorders the pair
held by the bundle in place.  The first component is the Relation the differ
uses; the second component is the contents of the caller's pair after the
call. -/
def relationFromEndpoints (relation : List String) : Relation × List String :=
  let sortedPair := sortStrings relation
  let parts1 := splitColon (sortedPair.getD 0 "")
  let parts2 := splitColon (sortedPair.getD 1 "")
  (⟨parts1.1, parts1.2, parts2.1, parts2.2⟩, sortedPair)

/-- The contents of the bundle relation pairs once diffRelations (src/diff.go)
has walked them: each pair has been sorted in place through the alias taken by
relationFromEndpoints. -/
def diffRelationsBundleAfter (bundleRelations : List (List String)) : List (List String) :=
  bundleRelations.map fun relation => (relationFromEndpoints relation).2

/-- relationLess (src/diff.go): lexicographic comparison of relations by
(App1, Endpoint1, App2, Endpoint2). -/
def relationLess (a b : Relation) : Bool :=
  if a.App1 < b.App1 then true
  else if b.App1 < a.App1 then false
  else if a.Endpoint1 < b.Endpoint1 then true
  else if b.Endpoint1 < a.Endpoint1 then false
  else if a.App2 < b.App2 then true
  else if b.App2 < a.App2 then false
  else decide (a.Endpoint2 < b.Endpoint2)

/-- RelationsDiff (src/diff.go). -/
structure RelationsDiff where
  BundleExtra : List (List String)
  ModelExtra : List (List String)
deriving DecidableEq, Repr

/-- toRelationSlices (src/diff.go). -/
def toRelationSlices (relations : List Relation) : List (List String) :=
  relations.map fun r => [r.App1 ++ ":" ++ r.Endpoint1, r.App2 ++ ":" ++ r.Endpoint2]

/-- diffRelations (src/diff.go): canonicalise both sides, compute the two
extra lists, return none when both are empty.  The Go sets are maps, so the
bundle side is deduplicated; the model extras keep one entry per model
relation not present in the bundle, and both sides are sorted with
relationLess before being rendered. -/
def diffRelations (bundleRels : List (List String)) (modelRels : List Relation) :
    Option RelationsDiff :=
  let bundleSet := (bundleRels.map fun rel => (relationFromEndpoints rel).1).dedup
  let modelCanon := modelRels.map canonicalRelation
  let modelSet := modelCanon.dedup
  let modelExtra := modelCanon.filter fun rel => !(bundleSet.contains rel)
  let bundleExtra := bundleSet.filter fun rel => !(modelSet.contains rel)
  if bundleExtra.isEmpty && modelExtra.isEmpty then none
  else
    some ⟨toRelationSlices (List.insertionSort (fun a b => relationLess a b = true) bundleExtra),
      toRelationSlices (List.insertionSort (fun a b => relationLess a b = true) modelExtra)⟩

/- ===================== Definitions: model (src/model.go) =================== -/

/-- A dynamically typed option value (an interface value in Go).  Values read
back from the model may have been through JSON serialisation, which turns ints
into float64.  float64 values are modelled as rationals: every finite float is
a rational, and the comparisons and the int(...) conversion the source
performs on them are exact at the inputs of interest. -/
inductive OptVal where
  | str (s : String)
  | int (n : Int)
  | float (q : Rat)
  | bool (b : Bool)
deriving DecidableEq, Repr

/-- Go int(f) on a float64 holding the rational q: truncation toward zero. -/
def ratTrunc (q : Rat) : Int :=
  q.num.tdiv q.den

/-- An existing application of the model (src/model.go).  A unit named
<app>/<n> is represented by its number n under the application entry holding
it; the Machine field of units is not read by the functions embedded here.
The subordinateTo field carries the SubordinateTo list that the differ tests
of the sources set on model applications (declared by the model.go revision
that is not among the sources). -/
structure MApplication where
  name : String
  charm : String
  options : List (String × OptVal)
  annotations : List (String × String)
  constraints : String
  exposed : Bool
  units : List Nat
  subordinateTo : List String
deriving DecidableEq, Repr

/-- changedOptions (src/model.go): the requested option entries whose model
value differs or is missing.  When the bundle value is an int and the model
holds a float64, the model value is first narrowed with int(...) — with no
exactness test — before the comparison. -/
def changedOptions (a : MApplication) (options : List (String × OptVal)) :
    List (String × OptVal) :=
  if a.options.isEmpty then options
  else
    options.filter fun kv =>
      match a.options.lookup kv.1 with
      | none => true
      | some current =>
        let narrowed :=
          match kv.2, current with
          | OptVal.int _, OptVal.float q => OptVal.int (ratTrunc q)
          | _, _ => current
        decide (narrowed ≠ kv.2)

/-- hasCharm (src/model.go): some deployed application uses exactly this charm
reference.  The empty-model early return of the source coincides with any on
an empty list. -/
def hasCharm (apps : List (String × MApplication)) (charm : String) : Bool :=
  apps.any fun entry => entry.2.charm == charm

/-- A machine id of the model: a top-level machine number or a container
nested in a parent machine, rendered "<n>" or "<parent>/<type>/<n>".  The
names.v2 tag helpers src/model.go calls become structural projections; the
IsValid guards of the source always hold on these structural ids. -/
inductive MachineID where
  | top (n : Nat)
  | container (parent : MachineID) (ctype : String) (n : Nat)
deriving DecidableEq, Repr

/-- The string form of a machine id. -/
def renderMachine : MachineID → String
  | MachineID.top n => toString n
  | MachineID.container p t n => renderMachine p ++ "/" ++ t ++ "/" ++ toString n

/-- The sequence key initializeSequence (src/model.go) uses for a machine id:
"machine" for a top-level machine, "machine-<parent>/<type>" for a
container. -/
def machineKey : MachineID → String
  | MachineID.top _ => "machine"
  | MachineID.container p t _ => "machine-" ++ renderMachine p ++ "/" ++ t

/-- tag.ChildId() as a number: the last numeric component of a machine id. -/
def machineChild : MachineID → Nat
  | MachineID.top n => n
  | MachineID.container _ _ n => n

/-- The model (src/model.go) restricted to the fields the embedded functions
read: applications, machine ids, and the optional caller-provided Sequence. -/
structure ModelM where
  Applications : List (String × MApplication)
  Machines : List MachineID
  Sequence : Option (List (String × Nat))
deriving DecidableEq, Repr

/-- Reading the sequence map: missing keys read 0, as Go map reads do. -/
def seqGet (seq : List (String × Nat)) (k : String) : Nat :=
  (seq.lookup k).getD 0

/-- Writing one key of the sequence map. -/
def seqSet (seq : List (String × Nat)) (k : String) (v : Nat) : List (String × Nat) :=
  match seq with
  | [] => [(k, v)]
  | (k2, v2) :: rest => if k2 = k then (k, v) :: rest else (k2, v2) :: seqSet rest k v

/-- The accumulation step of initializeSequence (src/model.go): raise the
counter of a key to n+1 unless it already exceeds n. -/
def seqBump (seq : List (String × Nat)) (k : String) (n : Nat) : List (String × Nat) :=
  if seqGet seq k ≤ n then seqSet seq k (n + 1) else seq

/-- initializeSequence (src/model.go): copy the caller's Sequence when one was
given; otherwise infer it from the model — for every unit <app>/<n> raise
"application-<app>" past n, and for every machine raise its key past its
child number. -/
def initializeSequence (m : ModelM) : List (String × Nat) :=
  match m.Sequence with
  | some s => s
  | none =>
    let s1 := m.Applications.foldl
      (fun acc entry =>
        entry.2.units.foldl (fun acc2 n => seqBump acc2 ("application-" ++ entry.1) n) acc)
      []
    m.Machines.foldl (fun acc mid => seqBump acc (machineKey mid) (machineChild mid)) s1

/-- nextMachine (src/model.go): the next top-level machine name and the
advanced sequence. -/
def nextMachine (seq : List (String × Nat)) : String × List (String × Nat) :=
  let value := seqGet seq "machine"
  (toString value, seqSet seq "machine" (value + 1))

/-- nextContainer (src/model.go). -/
def nextContainer (seq : List (String × Nat)) (parentID ctype : String) :
    String × List (String × Nat) :=
  let key := "machine-" ++ parentID ++ "/" ++ ctype
  let value := seqGet seq key
  (parentID ++ "/" ++ ctype ++ "/" ++ toString value, seqSet seq key (value + 1))

/-- nextUnit (src/model.go): the next unit name of an application and the
advanced sequence. -/
def nextUnit (seq : List (String × Nat)) (appName : String) :
    String × List (String × Nat) :=
  let key := "application-" ++ appName
  let value := seqGet seq key
  (appName ++ "/" ++ toString value, seqSet seq key (value + 1))

/- ========== Definitions: application handler charm step (spec-modelled) ==== -/

/-- A bundle application as the application handler sees it: name, charm
reference, and the series resolved by step 1 of the handler. -/
structure BundleAppC where
  name : String
  charm : String
  series : String
deriving DecidableEq, Repr

/-- Modelled from the spec: the charm-upload step of the application handler
(§4.5.1 step 2).  The reconciler revision of this repository that consults the
model is not among the sources — only its helper hasCharm (src/model.go) and
its tests (TestCharmInUseByAnotherApplication in src/changes_test.go) are.
Per the spec, an addCharm is emitted iff the (charm, series) pair has not yet
been emitted and the model does not already contain an application with
exactly that charm reference; the accumulator holds the emitted keys in
emission order. -/
def emitAddCharmsAux (model : List (String × MApplication)) :
    List BundleAppC → List (String × String) → List (String × String)
  | [], emitted => emitted
  | app :: rest, emitted =>
    if (app.charm, app.series) ∈ emitted ∨ hasCharm model app.charm = true then
      emitAddCharmsAux model rest emitted
    else
      emitAddCharmsAux model rest (emitted ++ [(app.charm, app.series)])

/-- Modelled from the spec: the application handler processes applications in
sorted name order; the result lists the (charm, series) keys of the emitted
addCharm changes in emission order. -/
def emitAddCharms (model : List (String × MApplication)) (apps : List BundleAppC) :
    List (String × String) :=
  emitAddCharmsAux model (List.insertionSort (fun a b => a.name ≤ b.name) apps) []

/-- A model application holding the float64 value 2.5 for the option
"debug". -/
def c6App : MApplication :=
  ⟨"django", "cs:django-4", [("debug", OptVal.float (Rat.divInt 5 2))], [], "", false, [], []⟩

/-- A model application holding the float64 value 2.5 for the option
"retries", used as a witness input. -/
def c6AppB : MApplication :=
  ⟨"haproxy", "cs:haproxy-1", [("retries", OptVal.float (Rat.divInt 5 2))], [], "", false, [], []⟩

/-- A model with one application owning units django/0 and django/1, one
top-level machine 0 and one container 0/lxd/1, and no caller-provided
Sequence; used as a witness input. -/
def c8Model : ModelM :=
  ⟨[("django", ⟨"django", "cs:django-4", [], [], "", false, [0, 1], []⟩)],
    [MachineID.top 0, MachineID.container (MachineID.top 0) "lxd" 1],
    none⟩

/- ============ Definitions: machine handler (src/unnamed/part_008) ========== -/

/-- A bundle machine spec (charm.MachineSpec): series, constraints and
annotations. -/
structure MachineSpec where
  series : String
  constraints : String
  annotations : List (String × String)
deriving DecidableEq, Repr

/-- A change emitted by handleMachines, tagged with the bundle machine id it
was emitted for (the addedMachines map of the source records the same
association through the change id). -/
inductive MachineChange where
  | addMachines (bundleID : String) (series constraints : String)
  | setAnnotations (bundleID : String) (annotations : List (String × String))
deriving DecidableEq, Repr

/-- handleMachines (src/unnamed/part_008): iterate over the machine map keys
sorted with sort.Strings; a nil machine spec becomes the empty spec; resolve
the series against the bundle default; emit the addMachines change and, when
the machine has annotations, its setAnnotations change. -/
def handleMachines (machines : List (String × Option MachineSpec))
    (defaultSeries : String) : List MachineChange :=
  let names := sortStrings (machines.map fun p => p.1)
  names.foldl
    (fun changes name =>
      let machine := ((machines.lookup name).getD none).getD ⟨"", "", []⟩
      let series := if machine.series = "" then defaultSeries else machine.series
      let withAdd := changes ++ [MachineChange.addMachines name series machine.constraints]
      if machine.annotations.isEmpty then withAdd
      else withAdd ++ [MachineChange.setAnnotations name machine.annotations])
    []

/-- The bundle machine ids of the addMachines changes, in emission order. -/
def addMachinesIds (changes : List MachineChange) : List String :=
  changes.filterMap fun c =>
    match c with
    | MachineChange.addMachines name _ _ => some name
    | MachineChange.setAnnotations _ _ => none

/- ===================== Definitions: differ (src/diff.go) =================== -/

/-- DiffSide (src/diff.go): "", "bundle" or "model". -/
abbrev DiffSide := String

/-- The bundle side marker. -/
def BundleSide : DiffSide := "bundle"

/-- The model side marker. -/
def ModelSide : DiffSide := "model"

/-- A bundle application as the differ reads it (charm.ApplicationSpec
restricted to the compared fields). -/
structure BundleApplication where
  charm : String
  series : String
  numUnits : Nat
  expose : Bool
  options : List (String × OptVal)
  annotations : List (String × String)
  constraints : String
deriving DecidableEq, Repr

/-- StringDiff (src/diff.go). -/
structure StringDiff where
  Bundle : String
  Model : String
deriving DecidableEq, Repr

/-- IntDiff (src/diff.go); both compared quantities (bundle num_units and the
model unit count) are nonnegative. -/
structure IntDiff where
  Bundle : Nat
  Model : Nat
deriving DecidableEq, Repr

/-- BoolDiff (src/diff.go). -/
structure BoolDiff where
  Bundle : Bool
  Model : Bool
deriving DecidableEq, Repr

/-- OptionDiff (src/diff.go); a side holds none when the key is absent on that
side (a nil interface value in Go). -/
structure OptionDiff where
  Bundle : Option OptVal
  Model : Option OptVal
deriving DecidableEq, Repr

/-- ApplicationDiff (src/diff.go). -/
structure ApplicationDiff where
  Missing : DiffSide
  Charm : Option StringDiff
  Series : Option StringDiff
  NumUnits : Option IntDiff
  Expose : Option BoolDiff
  Options : List (String × OptionDiff)
  Annotations : List (String × StringDiff)
  Constraints : Option StringDiff
deriving DecidableEq, Repr

/-- ApplicationDiff.Empty (src/diff.go). -/
def ApplicationDiff.Empty (d : ApplicationDiff) : Bool :=
  d.Missing == "" && d.Charm == none && d.Series == none && d.NumUnits == none
    && d.Expose == none && d.Options.isEmpty && d.Annotations.isEmpty
    && d.Constraints == none

/-- MachineDiff (src/diff.go). -/
structure MachineDiff where
  Missing : DiffSide
  Annotations : List (String × StringDiff)
  Series : Option StringDiff
deriving DecidableEq, Repr

/-- MachineDiff.Empty (src/diff.go). -/
def MachineDiff.Empty (d : MachineDiff) : Bool :=
  d.Missing == "" && d.Annotations.isEmpty && d.Series == none

/-- BundleDiff (src/diff.go). -/
structure BundleDiff where
  Applications : List (String × ApplicationDiff)
  Machines : List (String × MachineDiff)
  Series : Option StringDiff
  Relations : Option RelationsDiff
deriving DecidableEq, Repr

/-- BundleDiff.Empty (src/diff.go). -/
def BundleDiff.Empty (d : BundleDiff) : Bool :=
  d.Applications.isEmpty && d.Machines.isEmpty && d.Series == none
    && d.Relations == none

/-- diffStrings (src/diff.go). -/
def diffStrings (bundle model : String) : Option StringDiff :=
  if bundle = model then none else some ⟨bundle, model⟩

/-- diffInts (src/diff.go). -/
def diffInts (bundle model : Nat) : Option IntDiff :=
  if bundle = model then none else some ⟨bundle, model⟩

/-- diffBools (src/diff.go). -/
def diffBools (bundle model : Bool) : Option BoolDiff :=
  if bundle = model then none else some ⟨bundle, model⟩

/-- diffAnnotations (src/diff.go): for every key of either side, compare the
two values, reading the empty string for a missing key as Go map reads do.
The Go set iteration order does not affect the resulting map contents; the
embedding fixes the order of first appearance. -/
def diffAnnotations (bundle model : List (String × String)) :
    List (String × StringDiff) :=
  ((bundle.map fun p => p.1) ++ (model.map fun p => p.1)).dedup.filterMap
    fun name =>
      let bundleValue := (bundle.lookup name).getD ""
      let modelValue := (model.lookup name).getD ""
      if bundleValue = modelValue then none
      else some (name, ⟨bundleValue, modelValue⟩)

/-- diffOptions (src/diff.go): like diffAnnotations but over interface values
compared with reflect.DeepEqual, with nil for a missing key. -/
def diffOptions (bundle model : List (String × OptVal)) :
    List (String × OptionDiff) :=
  ((bundle.map fun p => p.1) ++ (model.map fun p => p.1)).dedup.filterMap
    fun name =>
      let bundleValue := bundle.lookup name
      let modelValue := model.lookup name
      if bundleValue = modelValue then none
      else some (name, ⟨bundleValue, modelValue⟩)

/-- Modelled from the spec: a model application is subordinate when its
SubordinateTo list is nonempty (the differ tests in the sources set
SubordinateTo on subordinate model applications). -/
def isSubordinate (a : MApplication) : Bool :=
  !a.subordinateTo.isEmpty

/-- diffApplication (src/diff.go): missing on either side is reported as such;
otherwise compare charm, num-units, expose, constraints and options, and the
annotations when requested, dropping an empty result.  The num-units
comparison is guarded for subordinates; that guard is Modelled from the spec
("numUnits (skipping subordinates)", scenario F): the diff.go revision with
the guard is not among the sources, only its test
(TestApplicationSubordinateNumUnits in src/unnamed/part_000) is. -/
def diffApplication (bundleApps : List (String × BundleApplication))
    (modelApps : List (String × MApplication)) (includeAnnotations : Bool)
    (name : String) : Option ApplicationDiff :=
  match bundleApps.lookup name with
  | none => some ⟨BundleSide, none, none, none, none, [], [], none⟩
  | some bundle =>
    match modelApps.lookup name with
    | none => some ⟨ModelSide, none, none, none, none, [], [], none⟩
    | some model =>
      let result : ApplicationDiff :=
        ⟨"", diffStrings bundle.charm model.charm, none,
          if isSubordinate model then none
          else diffInts bundle.numUnits model.units.length,
          diffBools bundle.expose model.exposed,
          diffOptions bundle.options model.options,
          if includeAnnotations then diffAnnotations bundle.annotations model.annotations
          else [],
          diffStrings bundle.constraints model.constraints⟩
      if result.Empty then none else some result

/-- diffApplications (src/diff.go): the union of the application names of the
two sides in sorted order, keeping the non-empty per-application diffs. -/
def diffApplications (bundleApps : List (String × BundleApplication))
    (modelApps : List (String × MApplication)) (includeAnnotations : Bool) :
    List (String × ApplicationDiff) :=
  (sortStrings ((bundleApps.map fun p => p.1) ++ (modelApps.map fun p => p.1)).dedup).filterMap
    fun name =>
      match diffApplication bundleApps modelApps includeAnnotations name with
      | none => none
      | some d => some (name, d)

/-- diffMachine (src/diff.go): a nil bundle machine spec is the empty spec;
only annotations (when requested) are compared. -/
def diffMachine (bundleMachines : List (String × Option MachineSpec))
    (modelMachines : List (String × List (String × String)))
    (includeAnnotations : Bool) (name : String) : Option MachineDiff :=
  match bundleMachines.lookup name with
  | none => some ⟨BundleSide, [], none⟩
  | some bundleOpt =>
    let bundle := bundleOpt.getD ⟨"", "", []⟩
    match modelMachines.lookup name with
    | none => some ⟨ModelSide, [], none⟩
    | some modelAnnotations =>
      let result : MachineDiff :=
        ⟨"", if includeAnnotations then diffAnnotations bundle.annotations modelAnnotations
          else [], none⟩
      if result.Empty then none else some result

/-- diffMachines (src/diff.go). -/
def diffMachines (bundleMachines : List (String × Option MachineSpec))
    (modelMachines : List (String × List (String × String)))
    (includeAnnotations : Bool) : List (String × MachineDiff) :=
  (sortStrings ((bundleMachines.map fun p => p.1)
      ++ (modelMachines.map fun p => p.1)).dedup).filterMap
    fun name =>
      match diffMachine bundleMachines modelMachines includeAnnotations name with
      | none => none
      | some d => some (name, d)

/-- BuildDiff (src/diff.go): the full diff of the compared parts — application
diffs, machine diffs, the relations diff; the series diff is a TODO of the
source and stays empty. -/
def buildDiff (bundleApps : List (String × BundleApplication))
    (bundleMachines : List (String × Option MachineSpec))
    (bundleRelations : List (List String))
    (modelApps : List (String × MApplication))
    (modelMachines : List (String × List (String × String)))
    (modelRelations : List Relation) (includeAnnotations : Bool) : BundleDiff :=
  ⟨diffApplications bundleApps modelApps includeAnnotations,
    diffMachines bundleMachines modelMachines includeAnnotations,
    none,
    diffRelations bundleRelations modelRelations⟩

/-- The bundle side of the subordinate scenario: nrpe with num_units 2. -/
def c5Bundle : BundleApplication := ⟨"cs:xenial/nrpe-12", "", 2, false, [], [], ""⟩

/-- The model side of the subordinate scenario: nrpe subordinate to
prometheus, with a single unit nrpe/0. -/
def c5Model : MApplication :=
  ⟨"nrpe", "cs:xenial/nrpe-12", [], [], "", false, [0], ["prometheus"]⟩

/- ===================== Theorems ============================================ -/

theorem emittable_iff {records : List String} {c : Change} :
    emittable records c = true ↔ ∀ r ∈ c.requires, r ∈ records := by
  simp only [emittable, List.all_eq_true]
  constructor
  · intro h r hr
    exact List.elem_iff.mp (h r hr)
  · intro h r hr
    exact List.elem_iff.mpr (h r hr)

theorem sortedAux_nil (fuel : Nat) (records : List String) (acc : List Change) :
    sortedAux fuel [] records acc = some acc.reverse := by
  cases fuel <;> rfl

theorem sortedAux_cons_pos {records : List String} {c : Change}
    (fuel : Nat) (rest acc : List Change) (h : emittable records c = true) :
    sortedAux (fuel + 1) (c :: rest) records acc
      = sortedAux fuel rest (c.id :: records) (c :: acc) := by
  simp [sortedAux, h]

theorem sortedAux_cons_neg {records : List String} {c : Change}
    (fuel : Nat) (rest acc : List Change) (h : ¬ emittable records c = true) :
    sortedAux (fuel + 1) (c :: rest) records acc
      = sortedAux fuel (rest ++ [c]) records acc := by
  simp [sortedAux, h]

theorem reqSeen_snoc {seen : List String} {l : List Change} {c : Change}
    (hl : reqSeen seen l)
    (hc : ∀ r ∈ c.requires, r ∈ seen ∨ r ∈ l.map Change.id) :
    reqSeen seen (l ++ [c]) := by
  induction l generalizing seen with
  | nil =>
    refine ⟨fun r hr => ?_, trivial⟩
    rcases hc r hr with h | h
    · exact h
    · simp at h
  | cons d l ih =>
    obtain ⟨hd, hrest⟩ := hl
    refine ⟨hd, ih hrest fun r hr => ?_⟩
    rcases hc r hr with h | h
    · exact Or.inl (List.mem_cons_of_mem _ h)
    · simp only [List.map_cons, List.mem_cons] at h
      rcases h with h | h
      · exact Or.inl (by simp [h])
      · exact Or.inr h

theorem reqSeen_requiresBefore {out : List Change} {seen : List String}
    (h : reqSeen seen out) :
    ∀ i, i < out.length → ∀ r ∈ (out.getD i dfltChange).requires,
      r ∈ seen ∨ r ∈ (out.take i).map Change.id := by
  induction out generalizing seen with
  | nil => intro i hi; simp at hi
  | cons c rest ih =>
    obtain ⟨hc, hrest⟩ := h
    intro i hi r hr
    cases i with
    | zero => exact Or.inl (hc r (by simpa using hr))
    | succ i =>
      have := ih hrest i (by simpa using hi) r (by simpa using hr)
      rcases this with h | h
      · rcases List.mem_cons.mp h with h | h
        · right; simp [h]
        · exact Or.inl h
      · right; simp only [List.take_succ_cons, List.map_cons, List.mem_cons]
        exact Or.inr h

theorem requiresBefore_reqSeen {out : List Change} {seen : List String}
    (h : ∀ i, i < out.length → ∀ r ∈ (out.getD i dfltChange).requires,
      r ∈ seen ∨ r ∈ (out.take i).map Change.id) :
    reqSeen seen out := by
  induction out generalizing seen with
  | nil => trivial
  | cons c rest ih =>
    constructor
    · intro r hr
      have := h 0 (by simp) r (by simpa using hr)
      simpa using this
    · refine ih fun i hi r hr => ?_
      have := h (i + 1) (by simpa using hi) r (by simpa using hr)
      rcases this with hx | hx
      · exact Or.inl (List.mem_cons_of_mem _ hx)
      · simp only [List.take_succ_cons, List.map_cons, List.mem_cons] at hx
        rcases hx with hx | hx
        · exact Or.inl (by simp [hx])
        · exact Or.inr hx

theorem sortedAux_some_spec {cs : List Change} :
    ∀ (fuel : Nat) (pending acc out : List Change),
      (acc.reverse ++ pending).Perm cs →
      reqSeen [] acc.reverse →
      sortedAux fuel pending (acc.map Change.id) acc = some out →
      out.Perm cs ∧ reqSeen [] out := by
  intro fuel
  induction fuel with
  | zero =>
    intro pending acc out hperm hreq hrun
    cases pending with
    | nil =>
      rw [sortedAux_nil] at hrun
      obtain rfl : acc.reverse = out := by simpa using hrun
      exact ⟨by simpa using hperm, hreq⟩
    | cons c rest => simp [sortedAux] at hrun
  | succ fuel ih =>
    intro pending acc out hperm hreq hrun
    cases pending with
    | nil =>
      rw [sortedAux_nil] at hrun
      obtain rfl : acc.reverse = out := by simpa using hrun
      exact ⟨by simpa using hperm, hreq⟩
    | cons c rest =>
      by_cases hem : emittable (acc.map Change.id) c = true
      · rw [sortedAux_cons_pos fuel rest acc hem] at hrun
        have hrec : sortedAux fuel rest ((c :: acc).map Change.id) (c :: acc) = some out := by
          simpa using hrun
        have hperm2 : ((c :: acc).reverse ++ rest).Perm cs := by
          have heq : (c :: acc).reverse ++ rest = acc.reverse ++ (c :: rest) := by
            simp
          rw [heq]
          exact hperm
        have hreq2 : reqSeen [] (c :: acc).reverse := by
          rw [List.reverse_cons]
          refine reqSeen_snoc hreq fun r hr => Or.inr ?_
          have : r ∈ acc.map Change.id := emittable_iff.mp hem r hr
          simpa using this
        exact ih rest (c :: acc) out hperm2 hreq2 hrec
      · rw [sortedAux_cons_neg fuel rest acc hem] at hrun
        have hperm2 : (acc.reverse ++ (rest ++ [c])).Perm cs := by
          refine (List.Perm.append_left acc.reverse ?_).trans hperm
          exact List.perm_append_singleton c rest
        exact ih (rest ++ [c]) acc out hperm2 hreq hrun

theorem exists_split_emittable {records : List String} :
    ∀ (pending : List Change), (∃ c ∈ pending, emittable records c = true) →
      ∃ bad c rest, pending = bad ++ c :: rest ∧
        (∀ b ∈ bad, ¬ emittable records b = true) ∧ emittable records c = true := by
  intro pending
  induction pending with
  | nil => intro h; simp at h
  | cons d rest ih =>
    intro h
    by_cases hd : emittable records d = true
    · exact ⟨[], d, rest, rfl, by simp, hd⟩
    · obtain ⟨c, hc, hcem⟩ := h
      rcases List.mem_cons.mp hc with rfl | hc
      · exact absurd hcem hd
      · obtain ⟨bad, c2, rest2, heq, hbad, hem⟩ := ih ⟨c, hc, hcem⟩
        refine ⟨d :: bad, c2, rest2, by simp [heq], ?_, hem⟩
        intro b hb
        rcases List.mem_cons.mp hb with rfl | hb
        · exact hd
        · exact hbad b hb

theorem sortedAux_rotate {records : List String} {acc : List Change} :
    ∀ (bad good : List Change) (f : Nat),
      (∀ b ∈ bad, ¬ emittable records b = true) →
      sortedAux (bad.length + f) (bad ++ good) records acc
        = sortedAux f (good ++ bad) records acc := by
  intro bad
  induction bad with
  | nil => intro good f _; simp
  | cons b bad ih =>
    intro good f hbad
    have h1 : (b :: bad).length + f = (bad.length + f) + 1 := by
      simp [List.length_cons]; omega
    rw [h1]
    have h2 : (b :: bad) ++ good = b :: (bad ++ good) := rfl
    rw [h2, sortedAux_cons_neg _ _ _ (hbad b (List.mem_cons_self b bad))]
    have h3 : (bad ++ good) ++ [b] = bad ++ (good ++ [b]) := by
      simp [List.append_assoc]
    rw [h3, ih (good ++ [b]) f fun x hx => hbad x (List.mem_cons_of_mem b hx)]
    have h4 : (good ++ [b]) ++ bad = good ++ (b :: bad) := by
      simp [List.append_assoc]
    rw [h4]

theorem exists_min_pending {cs : List Change} (hacyc : Acyclic cs) :
    ∀ (P : List Change), P ≠ [] → (∀ c ∈ P, c ∈ cs) →
      ∃ c ∈ P, ∀ d ∈ P, ¬ TransDep cs c d := by
  intro P hne hsub
  haveI : Finite {x : Change // x ∈ cs} := cs.finite_toSet.to_subtype
  let r : {x : Change // x ∈ cs} → {x : Change // x ∈ cs} → Prop :=
    fun a b => Relation.TransGen (dependsOn cs) b.val a.val
  haveI : IsTrans {x : Change // x ∈ cs} r :=
    ⟨fun _ _ _ hab hbc => Relation.TransGen.trans hbc hab⟩
  haveI : IsIrrefl {x : Change // x ∈ cs} r := ⟨fun a h => hacyc a.val h⟩
  have hwf : WellFounded r := Finite.wellFounded_of_trans_of_irrefl r
  obtain ⟨p, hp⟩ := List.exists_mem_of_ne_nil P hne
  obtain ⟨m, hmS, hmin⟩ :=
    hwf.has_min {x : {x : Change // x ∈ cs} | x.val ∈ P} ⟨⟨p, hsub p hp⟩, hp⟩
  exact ⟨m.val, hmS, fun d hd hdep => hmin ⟨d, hsub d hd⟩ hd hdep⟩

theorem emittable_of_min {cs : List Change} (hclosed : RequiresClosed cs)
    (pending acc : List Change) (hperm : (acc.reverse ++ pending).Perm cs)
    (c : Change) (hc : c ∈ pending) (hmin : ∀ d ∈ pending, ¬ TransDep cs c d) :
    emittable (acc.map Change.id) c = true := by
  rw [emittable_iff]
  intro r hr
  have hcin : c ∈ cs := hperm.subset (List.mem_append.mpr (Or.inr hc))
  have hrin : r ∈ cs.map Change.id := hclosed c hcin r hr
  obtain ⟨e, he, heid⟩ := List.mem_map.mp hrin
  have hein : e ∈ acc.reverse ++ pending := hperm.symm.subset he
  rcases List.mem_append.mp hein with h | h
  · have : e ∈ acc := List.mem_reverse.mp h
    exact heid ▸ List.mem_map_of_mem Change.id this
  · exfalso
    exact hmin e h (Relation.TransGen.single ⟨hcin, he, heid.symm ▸ hr⟩)

theorem sortedAux_terminates {cs : List Change}
    (hclosed : RequiresClosed cs) (hacyc : Acyclic cs) :
    ∀ (n : Nat) (pending acc : List Change), pending.length = n →
      (acc.reverse ++ pending).Perm cs →
      ∃ fuel out, sortedAux fuel pending (acc.map Change.id) acc = some out := by
  intro n
  induction n with
  | zero =>
    intro pending acc hlen hperm
    obtain rfl : pending = [] := List.eq_nil_of_length_eq_zero hlen
    exact ⟨0, acc.reverse, sortedAux_nil 0 _ _⟩
  | succ n ih =>
    intro pending acc hlen hperm
    have hne : pending ≠ [] := by
      intro h; subst h; simp at hlen
    obtain ⟨c0, hc0, hmin⟩ := exists_min_pending hacyc pending hne
      (fun c hc => hperm.subset (List.mem_append.mpr (Or.inr hc)))
    have hem0 : emittable (acc.map Change.id) c0 = true :=
      emittable_of_min hclosed pending acc hperm c0 hc0 hmin
    obtain ⟨bad, c, rest, heq, hbad, hemc⟩ :=
      exists_split_emittable pending ⟨c0, hc0, hem0⟩
    subst heq
    have hlen2 : (rest ++ bad).length = n := by
      simp only [List.length_append, List.length_cons] at hlen ⊢
      omega
    have hperm2 : ((c :: acc).reverse ++ (rest ++ bad)).Perm cs := by
      have heq2 : (c :: acc).reverse ++ (rest ++ bad)
          = acc.reverse ++ (c :: (rest ++ bad)) := by
        simp
      rw [heq2]
      refine (List.Perm.append_left acc.reverse ?_).trans hperm
      exact (List.Perm.cons c List.perm_append_comm).trans List.perm_middle.symm
    obtain ⟨fuel, out, hrun⟩ := ih (rest ++ bad) (c :: acc) hlen2 hperm2
    refine ⟨bad.length + (fuel + 1), out, ?_⟩
    rw [sortedAux_rotate bad (c :: rest) (fuel + 1) hbad]
    have h2 : (c :: rest) ++ bad = c :: (rest ++ bad) := rfl
    rw [h2, sortedAux_cons_pos fuel _ _ hemc]
    simpa using hrun

theorem sortedAux_stuck_missing {cs : List Change} {c : Change} {r : String}
    (hr : r ∈ c.requires) (hmiss : r ∉ cs.map Change.id) :
    ∀ (fuel : Nat) (pending : List Change) (records : List String) (acc : List Change),
      c ∈ pending → (∀ p ∈ pending, p ∈ cs) →
      (∀ s ∈ records, s ∈ cs.map Change.id) →
      sortedAux fuel pending records acc = none := by
  intro fuel
  induction fuel with
  | zero =>
    intro pending records acc hc _ _
    cases pending with
    | nil => simp at hc
    | cons d rest => rfl
  | succ fuel ih =>
    intro pending records acc hc hpend hrec
    cases pending with
    | nil => simp at hc
    | cons d rest =>
      by_cases hem : emittable records d = true
      · have hdc : d ≠ c := by
          rintro rfl
          exact hmiss (hrec r (emittable_iff.mp hem r hr))
        have hcr : c ∈ rest := by
          rcases List.mem_cons.mp hc with h | h
          · exact absurd h.symm hdc
          · exact h
        rw [sortedAux_cons_pos fuel rest acc hem]
        refine ih rest (d.id :: records) (d :: acc) hcr
          (fun p hp => hpend p (List.mem_cons_of_mem d hp)) ?_
        intro s hs
        rcases List.mem_cons.mp hs with rfl | hs
        · exact List.mem_map_of_mem Change.id (hpend d (List.mem_cons_self d rest))
        · exact hrec s hs
      · rw [sortedAux_cons_neg fuel rest acc hem]
        refine ih (rest ++ [d]) records acc ?_ ?_ hrec
        · rcases List.mem_cons.mp hc with rfl | h
          · exact List.mem_append.mpr (Or.inr (List.mem_singleton_self c))
          · exact List.mem_append.mpr (Or.inl h)
        · intro p hp
          rcases List.mem_append.mp hp with h | h
          · exact hpend p (List.mem_cons_of_mem d h)
          · rw [List.mem_singleton] at h
            subst h
            exact hpend p (List.mem_cons_self p rest)

theorem sortedAux_stuck_cycle {S : List Change} (hSne : S ≠ [])
    (hS : ∀ x ∈ S, ∃ y ∈ S, y.id ∈ x.requires) :
    ∀ (fuel : Nat) (pending : List Change) (records : List String) (acc : List Change),
      (∀ x ∈ S, x ∈ pending) → (∀ x ∈ S, x.id ∉ records) →
      (pending.map Change.id ++ records).Nodup →
      sortedAux fuel pending records acc = none := by
  intro fuel
  induction fuel with
  | zero =>
    intro pending records acc hpend _ _
    obtain ⟨x, hx⟩ := List.exists_mem_of_ne_nil S hSne
    cases pending with
    | nil => exact absurd (hpend x hx) (by simp)
    | cons d rest => rfl
  | succ fuel ih =>
    intro pending records acc hpend hids hnd
    obtain ⟨x0, hx0⟩ := List.exists_mem_of_ne_nil S hSne
    cases pending with
    | nil => exact absurd (hpend x0 hx0) (by simp)
    | cons d rest =>
      have hnd2 : (d.id :: (rest.map Change.id ++ records)).Nodup := by
        simpa using hnd
      by_cases hem : emittable records d = true
      · have hdS : d ∉ S := by
          intro hdmem
          obtain ⟨y, hyS, hyreq⟩ := hS d hdmem
          exact hids y hyS (emittable_iff.mp hem y.id hyreq)
        have hsub : ∀ x ∈ S, x ∈ rest := by
          intro x hx
          rcases List.mem_cons.mp (hpend x hx) with rfl | h
          · exact absurd hx hdS
          · exact h
        rw [sortedAux_cons_pos fuel rest acc hem]
        refine ih rest (d.id :: records) (d :: acc) hsub ?_ ?_
        · intro x hx
          rw [List.mem_cons]
          rintro (h | h)
          · have : x.id ∈ rest.map Change.id :=
              List.mem_map_of_mem Change.id (hsub x hx)
            have hdnotin := (List.nodup_cons.mp hnd2).1
            exact hdnotin (h ▸ List.mem_append.mpr (Or.inl this))
          · exact hids x hx h
        · refine List.Perm.nodup ?_ hnd2
          exact List.perm_middle.symm
      · rw [sortedAux_cons_neg fuel rest acc hem]
        refine ih (rest ++ [d]) records acc ?_ hids ?_
        · intro x hx
          rcases List.mem_cons.mp (hpend x hx) with rfl | h
          · exact List.mem_append.mpr (Or.inr (List.mem_singleton_self x))
          · exact List.mem_append.mpr (Or.inl h)
        · refine List.Perm.nodup ?_ hnd2
          simpa using
            List.Perm.append_right records
              (List.perm_append_singleton d.id (rest.map Change.id)).symm

theorem transGen_visits {α : Type} {rel : α → α → Prop} {a b : α}
    (h : Relation.TransGen rel a b) :
    ∃ S : List α, a ∈ S ∧ ∀ x ∈ S, ∃ y, rel x y ∧ (y ∈ S ∨ y = b) := by
  induction h with
  | single hrel =>
    refine ⟨[a], List.mem_singleton_self a, ?_⟩
    intro x hx
    rw [List.mem_singleton] at hx
    subst hx
    exact ⟨_, hrel, Or.inr rfl⟩
  | tail hab hrel ih =>
    obtain ⟨S, haS, hstep⟩ := ih
    rename_i m c
    refine ⟨m :: S, List.mem_cons_of_mem m haS, ?_⟩
    intro x hx
    rcases List.mem_cons.mp hx with rfl | hx
    · exact ⟨c, hrel, Or.inr rfl⟩
    · obtain ⟨y, hy, hmem⟩ := hstep x hx
      rcases hmem with h | h
      · exact ⟨y, hy, Or.inl (List.mem_cons_of_mem m h)⟩
      · subst h
        exact ⟨y, hy, Or.inl (List.mem_cons_self y S)⟩

/-- Claim C2: on a change set whose requires all refer to ids of changes of the
set (and whose ids are distinct, as the add method of src/changes.go
guarantees), changeset.sorted terminates iff the requires graph is acyclic,
and any terminating run returns a permutation of the changes in which every
requires-target appears earlier than each change that requires it. -/
theorem sorted_terminates_iff_acyclic (cs : List Change)
    (hclosed : RequiresClosed cs) (hnodup : (cs.map Change.id).Nodup) :
    ((∃ fuel out, sortedRun fuel cs = some out) ↔ Acyclic cs)
    ∧ (∀ fuel out, sortedRun fuel cs = some out →
        out.Perm cs ∧ RequiresBefore out) := by
  constructor
  · constructor
    · rintro ⟨fuel, out, hrun⟩
      by_contra hcyc
      have : ∃ c, TransDep cs c c := by
        simpa [Acyclic, not_forall] using hcyc
      obtain ⟨c0, hc0⟩ := this
      obtain ⟨S, hc0S, hstep⟩ := transGen_visits hc0
      have hSprop : ∀ x ∈ S, ∃ y ∈ S, y.id ∈ x.requires := by
        intro x hx
        obtain ⟨y, hdep, hy⟩ := hstep x hx
        rcases hy with h | h
        · exact ⟨y, h, hdep.2.2⟩
        · subst h
          exact ⟨y, hc0S, hdep.2.2⟩
      have hSsub : ∀ x ∈ S, x ∈ cs := by
        intro x hx
        obtain ⟨y, hdep, _⟩ := hstep x hx
        exact hdep.1
      have hnone : sortedAux fuel cs [] [] = none := by
        refine sortedAux_stuck_cycle (List.ne_nil_of_mem hc0S) hSprop fuel cs [] []
          hSsub (by simp) (by simpa using hnodup)
      rw [sortedRun, hnone] at hrun
      exact Option.noConfusion hrun
    · intro hacyc
      obtain ⟨fuel, out, h⟩ :=
        sortedAux_terminates hclosed hacyc cs.length cs [] rfl (by simp)
      exact ⟨fuel, out, by simpa using h⟩
  · intro fuel out hrun
    have hspec := @sortedAux_some_spec cs fuel cs [] out (by simp) trivial
      (by simpa using hrun)
    refine ⟨hspec.1, fun i hi r hr => ?_⟩
    rcases reqSeen_requiresBefore hspec.2 i hi r hr with h | h
    · simp at h
    · exact h

/-- Witness for claim C2 at a concrete two-change set. -/
theorem sorted_terminates_iff_acyclic_witness :
    (RequiresClosed c2Pair ∧ (c2Pair.map Change.id).Nodup)
    ∧ (((∃ fuel out, sortedRun fuel c2Pair = some out) ↔ Acyclic c2Pair)
      ∧ (∀ fuel out, sortedRun fuel c2Pair = some out →
          out.Perm c2Pair ∧ RequiresBefore out)) :=
  ⟨⟨by unfold RequiresClosed c2Pair; decide, by decide⟩,
    sorted_terminates_iff_acyclic c2Pair
      (by unfold RequiresClosed c2Pair; decide) (by decide)⟩

/-- Claim C9: when some change requires an id that is the id of no change of
the set, the loop of changeset.sorted never terminates: no amount of fuel makes
it return, because the blocked change is rotated to the tail forever. -/
theorem sorted_diverges_on_missing_require (cs : List Change) (c : Change) (r : String)
    (hc : c ∈ cs) (hr : r ∈ c.requires) (hmiss : r ∉ cs.map Change.id) :
    ∀ fuel, sortedRun fuel cs = none := by
  intro fuel
  exact sortedAux_stuck_missing hr hmiss fuel cs [] [] hc (fun p hp => hp) (by simp)

/-- Witness for claim C9 at a concrete one-change set with a dangling require. -/
theorem sorted_diverges_on_missing_require_witness :
    ((⟨"addUnit-0", ["deploy-9"], "addUnit"⟩ : Change) ∈ c9Set
      ∧ "deploy-9" ∈ (⟨"addUnit-0", ["deploy-9"], "addUnit"⟩ : Change).requires
      ∧ "deploy-9" ∉ c9Set.map Change.id)
    ∧ sortedRun 5 c9Set = none :=
  ⟨⟨by decide, by decide, by decide⟩,
    sorted_diverges_on_missing_require c9Set ⟨"addUnit-0", ["deploy-9"], "addUnit"⟩
      "deploy-9" (by decide) (by decide) (by decide) 5⟩

theorem c3_dep_characterization :
    ∀ x y, dependsOn c3Set x y → x = c3ChA ∧ y = c3ChC := by
  rintro x y ⟨hx, hy, hr⟩
  have hx3 : x = c3ChA ∨ x = c3ChB ∨ x = c3ChC := by simpa [c3Set] using hx
  have hy3 : y = c3ChA ∨ y = c3ChB ∨ y = c3ChC := by simpa [c3Set] using hy
  rcases hx3 with rfl | rfl | rfl <;> rcases hy3 with rfl | rfl | rfl <;>
    revert hr <;> decide

theorem c3_transdep_characterization :
    ∀ x y, TransDep c3Set x y → x = c3ChA ∧ y = c3ChC := by
  intro x y h
  induction h with
  | single hrel => exact c3_dep_characterization _ _ hrel
  | tail hab hrel ih =>
    have h1 := c3_dep_characterization _ _ hrel
    exact absurd (ih.2.symm.trans h1.1) (by decide)

/-- Claim C3 counterexample: a requires-closed, acyclic change set on which
changeset.sorted swaps two mutually independent changes.  The first appended
change requires the third, so it is rotated past the second: the second change
leaves the sort before the first although neither change transitively requires
the other. -/
theorem sorted_not_stable_counterexample :
    RequiresClosed c3Set ∧ Acyclic c3Set
    ∧ ¬ TransDep c3Set c3ChA c3ChB ∧ ¬ TransDep c3Set c3ChB c3ChA
    ∧ sortedRun 4 c3Set = some [c3ChB, c3ChC, c3ChA]
    ∧ c3Set.indexOf c3ChA < c3Set.indexOf c3ChB
    ∧ List.indexOf c3ChB [c3ChB, c3ChC, c3ChA]
        < List.indexOf c3ChA [c3ChB, c3ChC, c3ChA] := by
  refine ⟨by unfold RequiresClosed c3Set c3ChA c3ChB c3ChC; decide, ?_, ?_, ?_,
    by decide, by decide, by decide⟩
  · intro c h
    obtain ⟨h1, h2⟩ := c3_transdep_characterization c c h
    rw [h1] at h2
    exact absurd h2 (by decide)
  · intro h
    exact absurd (c3_transdep_characterization _ _ h).2 (by decide)
  · intro h
    exact absurd (c3_transdep_characterization _ _ h).1 (by decide)

theorem sortedAux_ordered :
    ∀ (pending acc : List Change),
      reqSeen (acc.map Change.id) pending →
      sortedAux pending.length pending (acc.map Change.id) acc
        = some (acc.reverse ++ pending) := by
  intro pending
  induction pending with
  | nil =>
    intro acc _
    simpa using sortedAux_nil 0 (acc.map Change.id) acc
  | cons c rest ih =>
    intro acc h
    obtain ⟨hc, hrest⟩ := h
    have hem : emittable (acc.map Change.id) c = true := emittable_iff.mpr hc
    have hlen : (c :: rest).length = rest.length + 1 := rfl
    rw [hlen, sortedAux_cons_pos _ _ _ hem]
    have hrec := ih (c :: acc) (by simpa using hrest)
    have heq : sortedAux rest.length rest (c.id :: acc.map Change.id) (c :: acc)
        = some ((c :: acc).reverse ++ rest) := by simpa using hrec
    rw [heq]
    simp

/-- Claim C3 (amended): when every change only requires ids of changes
appended before it, changeset.sorted returns the changes in insertion order,
so every pair of changes, in particular every mutually independent pair, keeps
its insertion order.  The counterexample shows that a forward require breaks
the stronger statement of the claim. -/
theorem sorted_preserves_insertion_order (cs : List Change)
    (h : RequiresBefore cs) : sortedRun cs.length cs = some cs := by
  have hrs : reqSeen [] cs :=
    requiresBefore_reqSeen (fun i hi r hr => Or.inr (h i hi r hr))
  have := sortedAux_ordered cs [] (by simpa using hrs)
  simpa using this

/-- Witness for the amended claim C3 at a concrete three-change set. -/
theorem sorted_preserves_insertion_order_witness :
    RequiresBefore c3Ordered ∧ sortedRun c3Ordered.length c3Ordered = some c3Ordered :=
  ⟨by unfold RequiresBefore c3Ordered; decide,
    sorted_preserves_insertion_order c3Ordered
      (by unfold RequiresBefore c3Ordered; decide)⟩

theorem canonicalRelation_canonicalForm (r : Relation) :
    CanonicalForm (canonicalRelation r) := by
  unfold canonicalRelation CanonicalForm
  split_ifs with h1 h2
  · exact Or.inl h1
  · exact Or.inr h2
  · rcases lt_or_eq_of_le (not_lt.mp h1) with h | h
    · exact Or.inl h
    · right
      refine ⟨h, ?_⟩
      have hnle : ¬ (r.Endpoint1 ≤ r.Endpoint2) := fun hle => h2 ⟨h.symm, hle⟩
      exact (not_le.mp hnle).le

theorem canonicalRelation_fixed (r : Relation) (h : CanonicalForm r) :
    canonicalRelation r = r := by
  unfold canonicalRelation
  rcases h with h | h
  · rw [if_pos h]
  · rw [if_neg, if_pos h]
    rw [h.1]
    exact lt_irrefl r.App2

theorem canonicalRelation_swap (r : Relation) :
    canonicalRelation (swapRelation r) = canonicalRelation r := by
  rcases lt_trichotomy r.App1 r.App2 with h | h | h
  · have e1 : canonicalRelation r = r := canonicalRelation_fixed r (Or.inl h)
    have e2 : canonicalRelation (swapRelation r) = r := by
      unfold canonicalRelation swapRelation
      rw [if_neg (lt_asymm h), if_neg]
      rintro ⟨he, _⟩
      exact ne_of_gt h he
    rw [e1, e2]
  · by_cases hle : r.Endpoint1 ≤ r.Endpoint2
    · have e1 : canonicalRelation r = r := canonicalRelation_fixed r (Or.inr ⟨h, hle⟩)
      by_cases hba : r.Endpoint2 ≤ r.Endpoint1
      · have hee : r.Endpoint1 = r.Endpoint2 := le_antisymm hle hba
        have hsw : swapRelation r = r := by
          unfold swapRelation
          cases r
          simp only [Relation.mk.injEq]
          exact ⟨h.symm, hee.symm, h, hee⟩
        rw [hsw, e1]
      · have e2 : canonicalRelation (swapRelation r) = r := by
          unfold canonicalRelation swapRelation
          rw [if_neg, if_neg]
          · rintro ⟨_, hc⟩
            exact hba hc
          · rw [h]
            exact lt_irrefl r.App2
        rw [e1, e2]
    · have e1 : canonicalRelation r = swapRelation r := by
        unfold canonicalRelation
        rw [if_neg, if_neg]
        · rfl
        · rintro ⟨_, hc⟩
          exact hle hc
        · rw [h]
          exact lt_irrefl r.App2
      have e2 : canonicalRelation (swapRelation r) = swapRelation r := by
        refine canonicalRelation_fixed (swapRelation r) (Or.inr ⟨h.symm, ?_⟩)
        exact (not_le.mp hle).le
      rw [e1, e2]
  · have e1 : canonicalRelation r = swapRelation r := by
      unfold canonicalRelation
      rw [if_neg (lt_asymm h), if_neg]
      · rfl
      · rintro ⟨he, _⟩
        exact ne_of_gt h he
    have e2 : canonicalRelation (swapRelation r) = swapRelation r :=
      canonicalRelation_fixed (swapRelation r) (Or.inl h)
    rw [e1, e2]

/-- Claim C10: canonicalRelation is idempotent, its result always satisfies
App1 smaller than App2 or the applications equal with Endpoint1 not after
Endpoint2, and a relation and its endpoint-swapped form canonicalise to the
same value. -/
theorem canonicalRelation_spec (r : Relation) :
    canonicalRelation (canonicalRelation r) = canonicalRelation r
    ∧ CanonicalForm (canonicalRelation r)
    ∧ canonicalRelation (swapRelation r) = canonicalRelation r :=
  ⟨canonicalRelation_fixed (canonicalRelation r) (canonicalRelation_canonicalForm r),
    canonicalRelation_canonicalForm r, canonicalRelation_swap r⟩

/-- Claim C4 (code bug, evaluated at the failing input): diffRelations sorts
each bundle relation pair in place through the alias taken by
relationFromEndpoints, so after BuildDiff the pair given as
[mysql:db, keystone:db] reads back reordered: the bundle input is mutated. -/
theorem buildDiff_mutates_bundle_relations :
    diffRelationsBundleAfter [["mysql:db", "keystone:db"]]
        = [["keystone:db", "mysql:db"]]
    ∧ [["keystone:db", "mysql:db"]] ≠ [["mysql:db", "keystone:db"]] := by
  constructor
  · simp [diffRelationsBundleAfter, relationFromEndpoints, sortStrings,
      List.insertionSort, List.orderedInsert]
    decide
  · decide

/-- Claim C6 counterexample: for a bundle int 2 against the model float 2.5,
changedOptions narrows 2.5 to 2 although information is lost, and reports no
changed option — the claim says this pairing is reported as changed. -/
theorem changedOptions_lossy_counterexample :
    changedOptions c6App [("debug", OptVal.int 2)] = []
    ∧ OptVal.float (Rat.divInt 5 2) ≠ OptVal.int 2
    ∧ Rat.divInt 5 2 ≠ ((2 : Int) : Rat) := by
  refine ⟨by decide, by decide, by decide⟩

/-- Claim C6 (amended): when the bundle value for a key is an int and the
model holds a float64 for it, the model value is narrowed with int(...)
unconditionally — truncating toward zero with no exactness test — so the
entry is reported as changed exactly when the truncated float differs from
the bundle int; in particular 2 against 2.5 is treated as equal and not
reported. -/
theorem changedOptions_narrows_unconditionally (a : MApplication) (key : String)
    (n : Int) (q : Rat) (h : a.options = [(key, OptVal.float q)]) :
    changedOptions a [(key, OptVal.int n)]
      = if ratTrunc q = n then [] else [(key, OptVal.int n)] := by
  unfold changedOptions
  rw [h]
  by_cases ht : ratTrunc q = n <;>
    simp [ht, List.filter, List.lookup]

/-- Witness for the amended claim C6 at the concrete model value 2.5. -/
theorem changedOptions_narrows_unconditionally_witness :
    c6AppB.options = [("retries", OptVal.float (Rat.divInt 5 2))]
    ∧ changedOptions c6AppB [("retries", OptVal.int 2)]
        = if ratTrunc (Rat.divInt 5 2) = 2 then [] else [("retries", OptVal.int 2)] :=
  ⟨rfl, changedOptions_narrows_unconditionally c6AppB "retries" 2 (Rat.divInt 5 2) rfl⟩

theorem seqGet_seqSet_same (seq : List (String × Nat)) (k : String) (v : Nat) :
    seqGet (seqSet seq k v) k = v := by
  induction seq with
  | nil => simp [seqSet, seqGet, List.lookup]
  | cons p rest ih =>
    obtain ⟨k2, v2⟩ := p
    by_cases h : k2 = k
    · subst h
      simp [seqSet, seqGet, List.lookup]
    · have hb : (k == k2) = false := beq_eq_false_iff_ne.mpr fun he => h he.symm
      simp only [seqSet, if_neg h, seqGet, List.lookup, hb]
      simpa [seqGet] using ih

theorem seqGet_seqSet_diff (seq : List (String × Nat)) (k k2 : String) (v : Nat)
    (h : k2 ≠ k) : seqGet (seqSet seq k v) k2 = seqGet seq k2 := by
  have hb : (k2 == k) = false := beq_eq_false_iff_ne.mpr h
  induction seq with
  | nil => simp [seqSet, seqGet, List.lookup, hb]
  | cons p rest ih =>
    obtain ⟨ka, va⟩ := p
    by_cases hk : ka = k
    · subst hk
      simp [seqSet, seqGet, List.lookup, hb]
    · by_cases he : k2 = ka
      · subst he
        simp [seqSet, if_neg hk, seqGet, List.lookup]
      · have hb2 : (k2 == ka) = false := beq_eq_false_iff_ne.mpr he
        simp only [seqSet, if_neg hk, seqGet, List.lookup, hb2]
        simpa [seqGet] using ih

theorem seqGet_seqBump_mono (seq : List (String × Nat)) (k : String) (n : Nat)
    (k2 : String) : seqGet seq k2 ≤ seqGet (seqBump seq k n) k2 := by
  unfold seqBump
  split_ifs with h
  · by_cases hk : k2 = k
    · subst hk
      rw [seqGet_seqSet_same]
      omega
    · rw [seqGet_seqSet_diff seq k k2 (n + 1) hk]
  · exact le_refl _

theorem seqGet_seqBump_ge (seq : List (String × Nat)) (k : String) (n : Nat) :
    n + 1 ≤ seqGet (seqBump seq k n) k := by
  unfold seqBump
  split_ifs with h
  · rw [seqGet_seqSet_same]
  · omega

theorem foldl_seqBump_mono {α : Type} (f : α → String) (g : α → Nat) :
    ∀ (l : List α) (acc : List (String × Nat)) (k : String),
      seqGet acc k ≤ seqGet (l.foldl (fun a x => seqBump a (f x) (g x)) acc) k := by
  intro l
  induction l with
  | nil => intro acc k; simp
  | cons x l ih =>
    intro acc k
    rw [List.foldl_cons]
    exact le_trans (seqGet_seqBump_mono acc (f x) (g x) k) (ih _ k)

theorem foldl_seqBump_ge {α : Type} (f : α → String) (g : α → Nat) :
    ∀ (l : List α) (acc : List (String × Nat)), ∀ x ∈ l,
      g x + 1 ≤ seqGet (l.foldl (fun a y => seqBump a (f y) (g y)) acc) (f x) := by
  intro l
  induction l with
  | nil => intro acc x hx; simp at hx
  | cons y l ih =>
    intro acc x hx
    rw [List.foldl_cons]
    rcases List.mem_cons.mp hx with rfl | hx
    · exact le_trans (seqGet_seqBump_ge acc (f x) (g x)) (foldl_seqBump_mono f g l _ (f x))
    · exact ih _ x hx

theorem appsFold_mono :
    ∀ (entries : List (String × MApplication)) (acc : List (String × Nat)) (k : String),
      seqGet acc k ≤
        seqGet (entries.foldl
          (fun acc entry =>
            entry.2.units.foldl (fun acc2 n => seqBump acc2 ("application-" ++ entry.1) n) acc)
          acc) k := by
  intro entries
  induction entries with
  | nil => intro acc k; simp
  | cons e entries ih =>
    intro acc k
    rw [List.foldl_cons]
    refine le_trans ?_ (ih _ k)
    exact foldl_seqBump_mono (fun _ => "application-" ++ e.1) (fun n => n) e.2.units acc k

theorem appsFold_ge :
    ∀ (entries : List (String × MApplication)) (acc : List (String × Nat)),
      ∀ e ∈ entries, ∀ n ∈ e.2.units,
        n + 1 ≤
          seqGet (entries.foldl
            (fun acc entry =>
              entry.2.units.foldl (fun acc2 m => seqBump acc2 ("application-" ++ entry.1) m) acc)
            acc) ("application-" ++ e.1) := by
  intro entries
  induction entries with
  | nil => intro acc e he; simp at he
  | cons e2 entries ih =>
    intro acc e he n hn
    rw [List.foldl_cons]
    rcases List.mem_cons.mp he with rfl | he
    · refine le_trans ?_ (appsFold_mono entries _ ("application-" ++ e.1))
      exact foldl_seqBump_ge (fun _ => "application-" ++ e.1) (fun m => m) e.2.units acc n hn
    · exact ih _ e he n hn

/-- Claim C8: with a nil Sequence, the inferred sequence dominates every
existing unit number, top-level machine number and container number; the
names nextUnit and nextMachine return are built from counters strictly past
every existing number; and each call advances its own counter while no
counter ever decreases. -/
theorem sequence_allocator_spec (m : ModelM) (h : m.Sequence = none) :
    (∀ e ∈ m.Applications, ∀ n ∈ e.2.units,
        n + 1 ≤ seqGet (initializeSequence m) ("application-" ++ e.1))
    ∧ (∀ mid ∈ m.Machines,
        machineChild mid + 1 ≤ seqGet (initializeSequence m) (machineKey mid))
    ∧ (∀ e ∈ m.Applications, ∀ n ∈ e.2.units,
        n < seqGet (initializeSequence m) ("application-" ++ e.1)
        ∧ (nextUnit (initializeSequence m) e.1).1
            = e.1 ++ "/" ++ toString (seqGet (initializeSequence m) ("application-" ++ e.1)))
    ∧ (∀ mid ∈ m.Machines, ∀ n, mid = MachineID.top n →
        n < seqGet (initializeSequence m) "machine"
        ∧ (nextMachine (initializeSequence m)).1
            = toString (seqGet (initializeSequence m) "machine"))
    ∧ (∀ seq appName,
        seqGet (nextUnit seq appName).2 ("application-" ++ appName)
            = seqGet seq ("application-" ++ appName) + 1
        ∧ seqGet (nextMachine seq).2 "machine" = seqGet seq "machine" + 1)
    ∧ (∀ seq appName k,
        seqGet seq k ≤ seqGet (nextUnit seq appName).2 k
        ∧ seqGet seq k ≤ seqGet (nextMachine seq).2 k) := by
  have hinit : initializeSequence m
      = m.Machines.foldl (fun acc mid => seqBump acc (machineKey mid) (machineChild mid))
          (m.Applications.foldl
            (fun acc entry =>
              entry.2.units.foldl
                (fun acc2 n => seqBump acc2 ("application-" ++ entry.1) n) acc)
            []) := by
    unfold initializeSequence
    rw [h]
  have hunits : ∀ e ∈ m.Applications, ∀ n ∈ e.2.units,
      n + 1 ≤ seqGet (initializeSequence m) ("application-" ++ e.1) := by
    intro e he n hn
    rw [hinit]
    refine le_trans (appsFold_ge m.Applications [] e he n hn) ?_
    exact foldl_seqBump_mono machineKey machineChild m.Machines _ ("application-" ++ e.1)
  have hmachines : ∀ mid ∈ m.Machines,
      machineChild mid + 1 ≤ seqGet (initializeSequence m) (machineKey mid) := by
    intro mid hmid
    rw [hinit]
    exact foldl_seqBump_ge machineKey machineChild m.Machines _ mid hmid
  refine ⟨hunits, hmachines, ?_, ?_, ?_, ?_⟩
  · intro e he n hn
    exact ⟨lt_of_lt_of_le (Nat.lt_succ_self n) (hunits e he n hn), rfl⟩
  · intro mid hmid n hn
    subst hn
    exact ⟨lt_of_lt_of_le (Nat.lt_succ_self n) (hmachines _ hmid), rfl⟩
  · intro seq appName
    exact ⟨seqGet_seqSet_same _ _ _, seqGet_seqSet_same _ _ _⟩
  · intro seq appName k
    constructor
    · by_cases hk : k = "application-" ++ appName
      · subst hk
        rw [show (nextUnit seq appName).2
            = seqSet seq ("application-" ++ appName) (seqGet seq ("application-" ++ appName) + 1)
          from rfl]
        rw [seqGet_seqSet_same]
        omega
      · rw [show (nextUnit seq appName).2
            = seqSet seq ("application-" ++ appName) (seqGet seq ("application-" ++ appName) + 1)
          from rfl]
        rw [seqGet_seqSet_diff _ _ _ _ hk]
    · by_cases hk : k = "machine"
      · subst hk
        rw [show (nextMachine seq).2 = seqSet seq "machine" (seqGet seq "machine" + 1) from rfl]
        rw [seqGet_seqSet_same]
        omega
      · rw [show (nextMachine seq).2 = seqSet seq "machine" (seqGet seq "machine" + 1) from rfl]
        rw [seqGet_seqSet_diff _ _ _ _ hk]

/-- Witness for claim C8 at a concrete model. -/
theorem sequence_allocator_spec_witness :
    c8Model.Sequence = none
    ∧ ((∀ e ∈ c8Model.Applications, ∀ n ∈ e.2.units,
          n + 1 ≤ seqGet (initializeSequence c8Model) ("application-" ++ e.1))
      ∧ (∀ mid ∈ c8Model.Machines,
          machineChild mid + 1 ≤ seqGet (initializeSequence c8Model) (machineKey mid))
      ∧ (∀ e ∈ c8Model.Applications, ∀ n ∈ e.2.units,
          n < seqGet (initializeSequence c8Model) ("application-" ++ e.1)
          ∧ (nextUnit (initializeSequence c8Model) e.1).1
              = e.1 ++ "/" ++ toString (seqGet (initializeSequence c8Model) ("application-" ++ e.1)))
      ∧ (∀ mid ∈ c8Model.Machines, ∀ n, mid = MachineID.top n →
          n < seqGet (initializeSequence c8Model) "machine"
          ∧ (nextMachine (initializeSequence c8Model)).1
              = toString (seqGet (initializeSequence c8Model) "machine"))
      ∧ (∀ seq appName,
          seqGet (nextUnit seq appName).2 ("application-" ++ appName)
              = seqGet seq ("application-" ++ appName) + 1
          ∧ seqGet (nextMachine seq).2 "machine" = seqGet seq "machine" + 1)
      ∧ (∀ seq appName k,
          seqGet seq k ≤ seqGet (nextUnit seq appName).2 k
          ∧ seqGet seq k ≤ seqGet (nextMachine seq).2 k)) :=
  ⟨rfl, sequence_allocator_spec c8Model rfl⟩

theorem emitAddCharmsAux_mem (model : List (String × MApplication)) :
    ∀ (l : List BundleAppC) (emitted : List (String × String)) (key : String × String),
      key ∈ emitAddCharmsAux model l emitted ↔
        key ∈ emitted ∨
          ((∃ a ∈ l, a.charm = key.1 ∧ a.series = key.2)
            ∧ hasCharm model key.1 = false) := by
  intro l
  induction l with
  | nil =>
    intro emitted key
    simp [emitAddCharmsAux]
  | cons app rest ih =>
    intro emitted key
    by_cases hc : (app.charm, app.series) ∈ emitted ∨ hasCharm model app.charm = true
    · simp only [emitAddCharmsAux]
      rw [if_pos hc, ih]
      constructor
      · rintro (h | ⟨⟨a, ha, hk1, hk2⟩, hch⟩)
        · exact Or.inl h
        · exact Or.inr ⟨⟨a, List.mem_cons_of_mem app ha, hk1, hk2⟩, hch⟩
      · rintro (h | ⟨⟨a, ha, hk1, hk2⟩, hch⟩)
        · exact Or.inl h
        · rcases List.mem_cons.mp ha with rfl | ha
          · have hkey : key = (a.charm, a.series) := by
              rw [hk1, hk2]
            rcases hc with hmem | hhc
            · exact Or.inl (hkey ▸ hmem)
            · rw [hk1] at hhc
              exact (Bool.false_ne_true (hch.symm.trans hhc)).elim
          · exact Or.inr ⟨⟨a, ha, hk1, hk2⟩, hch⟩
    · simp only [emitAddCharmsAux]
      rw [if_neg hc, ih]
      push_neg at hc
      obtain ⟨hnm, hnc⟩ := hc
      have hfc : hasCharm model app.charm = false := by
        cases hx : hasCharm model app.charm
        · rfl
        · exact absurd hx hnc
      constructor
      · rintro (h | ⟨⟨a, ha, hk1, hk2⟩, hch⟩)
        · rcases List.mem_append.mp h with h | h
          · exact Or.inl h
          · rw [List.mem_singleton] at h
            subst h
            exact Or.inr ⟨⟨app, List.mem_cons_self app rest, rfl, rfl⟩, hfc⟩
        · exact Or.inr ⟨⟨a, List.mem_cons_of_mem app ha, hk1, hk2⟩, hch⟩
      · rintro (h | ⟨⟨a, ha, hk1, hk2⟩, hch⟩)
        · exact Or.inl (List.mem_append.mpr (Or.inl h))
        · rcases List.mem_cons.mp ha with rfl | ha
          · left
            refine List.mem_append.mpr (Or.inr ?_)
            rw [List.mem_singleton, hk1, hk2]
          · exact Or.inr ⟨⟨a, ha, hk1, hk2⟩, hch⟩

theorem emitAddCharmsAux_nodup (model : List (String × MApplication)) :
    ∀ (l : List BundleAppC) (emitted : List (String × String)),
      emitted.Nodup → (emitAddCharmsAux model l emitted).Nodup := by
  intro l
  induction l with
  | nil =>
    intro emitted h
    simpa [emitAddCharmsAux] using h
  | cons app rest ih =>
    intro emitted h
    by_cases hc : (app.charm, app.series) ∈ emitted ∨ hasCharm model app.charm = true
    · simp only [emitAddCharmsAux]
      rw [if_pos hc]
      exact ih emitted h
    · simp only [emitAddCharmsAux]
      rw [if_neg hc]
      push_neg at hc
      refine ih _ (List.nodup_append.mpr ⟨h, List.nodup_singleton _, ?_⟩)
      intro x hx hy
      rw [List.mem_singleton] at hy
      subst hy
      exact hc.1 hx

/-- Claim C1: when the applications are processed in sorted order, an addCharm
is emitted for a (charm, series) key iff some bundle application carries that
key and the model does not already contain an application with exactly that
charm reference; the emitted keys are pairwise distinct, so at most one
addCharm change exists per key. -/
theorem addCharm_emitted_iff (model : List (String × MApplication))
    (apps : List BundleAppC) :
    (emitAddCharms model apps).Nodup
    ∧ ∀ key : String × String,
        key ∈ emitAddCharms model apps ↔
          ((∃ a ∈ apps, a.charm = key.1 ∧ a.series = key.2)
            ∧ hasCharm model key.1 = false) := by
  constructor
  · exact emitAddCharmsAux_nodup model _ [] List.nodup_nil
  · intro key
    rw [emitAddCharms, emitAddCharmsAux_mem]
    simp only [List.not_mem_nil, false_or]
    constructor
    · rintro ⟨⟨a, ha, hk⟩, hch⟩
      exact ⟨⟨a, (List.perm_insertionSort _ apps).mem_iff.mp ha, hk⟩, hch⟩
    · rintro ⟨⟨a, ha, hk⟩, hch⟩
      exact ⟨⟨a, (List.perm_insertionSort _ apps).mem_iff.mpr ha, hk⟩, hch⟩

theorem addMachinesIds_append (l1 l2 : List MachineChange) :
    addMachinesIds (l1 ++ l2) = addMachinesIds l1 ++ addMachinesIds l2 := by
  simp [addMachinesIds]

theorem handleMachines_foldl_ids (defaultSeries : String)
    (machines : List (String × Option MachineSpec)) :
    ∀ (names : List String) (changes : List MachineChange),
      addMachinesIds (names.foldl
        (fun changes name =>
          let machine := ((machines.lookup name).getD none).getD ⟨"", "", []⟩
          let series := if machine.series = "" then defaultSeries else machine.series
          let withAdd := changes ++ [MachineChange.addMachines name series machine.constraints]
          if machine.annotations.isEmpty then withAdd
          else withAdd ++ [MachineChange.setAnnotations name machine.annotations])
        changes) = addMachinesIds changes ++ names := by
  intro names
  induction names with
  | nil => intro changes; simp
  | cons name rest ih =>
    intro changes
    rw [List.foldl_cons, ih]
    by_cases ha : (((machines.lookup name).getD none).getD ⟨"", "", []⟩).annotations.isEmpty
    · simp [ha, addMachinesIds_append, addMachinesIds]
    · simp [ha, addMachinesIds_append, addMachinesIds]

/-- Claim C7 (amended): the machine handler of the sources processes the
bundle machine ids, and therefore emits their addMachines changes, in
lexicographic string order of machine id — one addMachines change per bundle
machine, in the sorted order of the keys. -/
theorem handleMachines_lexicographic_order
    (machines : List (String × Option MachineSpec)) (defaultSeries : String) :
    addMachinesIds (handleMachines machines defaultSeries)
        = sortStrings (machines.map fun p => p.1)
    ∧ (sortStrings (machines.map fun p => p.1)).Perm (machines.map fun p => p.1)
    ∧ List.Sorted (fun a b : String => a ≤ b)
        (sortStrings (machines.map fun p => p.1)) := by
  refine ⟨?_, List.perm_insertionSort _ _, List.sorted_insertionSort _ _⟩
  rw [handleMachines]
  rw [handleMachines_foldl_ids defaultSeries machines
    (sortStrings (machines.map fun p => p.1)) []]
  simp [addMachinesIds]

/-- Claim C7 counterexample: with bundle machines "10" and "2", handleMachines
processes "10" first — lexicographic string order, not the natural numeric
order the claim states (which would put "2" first). -/
theorem handleMachines_not_natural_counterexample :
    addMachinesIds (handleMachines [("10", none), ("2", none)] "xenial") = ["10", "2"]
    ∧ ["10", "2"] ≠ ["2", "10"]
    ∧ (2 : Nat) < 10 := by
  refine ⟨?_, by decide, by decide⟩
  have hsorted : sortStrings ["10", "2"] = ["10", "2"] := by
    have h : (("10" : String) ≤ "2") :=
      le_of_lt (String.lt_iff_toList_lt.mpr (by decide))
    simp [sortStrings, List.insertionSort, List.orderedInsert, h]
  have heval : addMachinesIds (handleMachines [("10", none), ("2", none)] "xenial")
      = sortStrings ["10", "2"] := by
    have h1 := handleMachines_foldl_ids "xenial" [("10", none), ("2", none)]
      (sortStrings (([("10", none), ("2", none)] :
        List (String × Option MachineSpec)).map fun p => p.1)) []
    rw [show addMachinesIds ([] : List MachineChange) = [] from rfl,
      List.nil_append] at h1
    exact h1
  rw [heval, hsorted]

/-- Claim C5 (subordinate guard modelled from the spec): for an application
present on both sides whose model application is subordinate, the differ
reports no num-units difference whatever the unit counts are, and when every
other compared field agrees the whole bundle diff is empty. -/
theorem diffApplication_subordinate (name : String) (b : BundleApplication)
    (m : MApplication) (incl : Bool) (hsub : isSubordinate m = true) :
    ((diffApplication [(name, b)] [(name, m)] incl name).getD
        ⟨"", none, none, none, none, [], [], none⟩).NumUnits = none
    ∧ (b.charm = m.charm → b.expose = m.exposed → b.constraints = m.constraints →
        diffOptions b.options m.options = [] →
        (incl = true → diffAnnotations b.annotations m.annotations = []) →
        (buildDiff [(name, b)] [] [] [(name, m)] [] [] incl).Empty = true) := by
  have hb : ([(name, b)] : List (String × BundleApplication)).lookup name = some b := by
    simp [List.lookup]
  have hm : ([(name, m)] : List (String × MApplication)).lookup name = some m := by
    simp [List.lookup]
  constructor
  · simp only [diffApplication, hb, hm]
    split_ifs <;> simp [hsub]
  · intro h1 h2 h3 h4 h5
    have hann : (if incl then diffAnnotations b.annotations m.annotations else [])
        = [] := by
      cases incl
      · rfl
      · simpa using h5 rfl
    have happ : diffApplication [(name, b)] [(name, m)] incl name = none := by
      simp only [diffApplication, hb, hm]
      simp [ApplicationDiff.Empty, hsub, h1, h2, h3, h4, hann, diffStrings, diffBools]
    have hnames : (([(name, b)].map fun p : String × BundleApplication => p.1)
        ++ ([(name, m)].map fun p : String × MApplication => p.1)) = [name, name] := rfl
    have hdedup : ([name, name] : List String).dedup = [name] :=
      (List.dedup_cons_of_mem (by simp)).trans (by simp)
    have happs : diffApplications [(name, b)] [(name, m)] incl = [] := by
      rw [diffApplications, hnames, hdedup]
      simp [sortStrings, List.insertionSort, List.orderedInsert, happ]
    rw [show (buildDiff [(name, b)] [] [] [(name, m)] [] [] incl)
        = ⟨diffApplications [(name, b)] [(name, m)] incl,
            diffMachines [] [] incl, none, diffRelations [] []⟩ from rfl]
    rw [happs]
    have hmach : diffMachines [] [] incl = [] := by
      simp [diffMachines, sortStrings, List.insertionSort]
    have hrel : diffRelations [] [] = none := by
      simp [diffRelations]
    rw [hmach, hrel]
    rfl

/-- Witness for claim C5 at the subordinate scenario: bundle num_units 2
against one deployed unit, no num-units difference, empty diff. -/
theorem diffApplication_subordinate_witness :
    isSubordinate c5Model = true
    ∧ ((diffApplication [("nrpe", c5Bundle)] [("nrpe", c5Model)] false "nrpe").getD
        ⟨"", none, none, none, none, [], [], none⟩).NumUnits = none
    ∧ (buildDiff [("nrpe", c5Bundle)] [] [] [("nrpe", c5Model)] [] [] false).Empty
        = true :=
  ⟨rfl,
    (diffApplication_subordinate "nrpe" c5Bundle c5Model false rfl).1,
    (diffApplication_subordinate "nrpe" c5Bundle c5Model false rfl).2
      rfl rfl rfl rfl (fun h => absurd h (by decide))⟩

end Bundlechanges
